import Mathlib

/-
Verification of the hash-partitioning shuffle writer
(native-engine/datafusion-ext/src/shuffle_writer_exec.rs).

The Rust code is embedded shallowly: byte buffers are lists of Nat
(one Nat per byte), files are the lists of bytes they contain, and the
stateful methods are state-passing functions returning the mutated state
together with an Except result, mirroring functions that mutate self and
return a Result.  External library behaviour (the zstd encoder, the Arrow
IPC writer, expression evaluation, the memory arbiter and the allocator
growth policy of Vec) is kept as explicit function parameters, so every
theorem below holds for every behaviour of those libraries.  Two small
pieces of the repository live in files that are not part of this tree
(spark_hash.rs and batch_buffer.rs); the definitions for them are marked
as modelled from the specification text.
-/

namespace Blaze

/-- Error kinds mirroring the DataFusionError values that
shuffle_writer_exec.rs constructs or propagates. -/
inductive DFErr where
  | notImplemented
  | execution
  | resourcesExhausted
  | encoder
deriving Repr, DecidableEq

/-- Little-endian byte encoding of a 64-bit integer, one Nat per byte.
For the file offsets written by the index writer, which are below 2 ^ 63,
these are exactly the bytes of the i64 cast in the source. -/
def toLE64 (n : Nat) : List Nat :=
  (List.range 8).map fun i => n / 256 ^ i % 256

/-- A Rust Vec of u8: the stored bytes plus the allocated capacity.
The allocator growth policy is a parameter everywhere it matters. -/
structure ByteVec where
  data : List Nat
  cap : Nat
deriving Repr, DecidableEq

/-- write_all on a Vec sink: append the bytes; the capacity after the
write is chosen by the allocator policy growCap from the old capacity and
the new length. -/
def ByteVec.writeAll (growCap : Nat → Nat → Nat) (v : ByteVec) (bs : List Nat) : ByteVec :=
  { data := v.data ++ bs, cap := growCap v.cap (v.data.length + bs.length) }

/-- Overwriting bytes in place starting at pos, as the write_all into the
mutable slice output[start_pos..] does when patching the two length
fields. -/
def ByteVec.patchAt (v : ByteVec) (pos : Nat) (bs : List Nat) : ByteVec :=
  { data := v.data.take pos ++ bs ++ v.data.drop (pos + bs.length), cap := v.cap }

/-- A RecordBatch, abstracted to its row count; the columnar content only
ever flows through the abstract encoder and evaluator parameters. -/
structure Batch where
  numRows : Nat
deriving Repr, DecidableEq

/-- Modelled from the spec: the MutableRecordBatch builder of
batch_buffer.rs, whose source file is not part of this tree.  It is an
active columnar builder holding a number of buffered rows;
output_and_reset materializes them into a RecordBatch and resets the
builder to empty. -/
structure MutableRecordBatch where
  rowCount : Nat
deriving Repr, DecidableEq

/-- Modelled from the spec: output_and_reset of batch_buffer.rs returns
the buffered rows as a batch and leaves the builder empty. -/
def MutableRecordBatch.output_and_reset (m : MutableRecordBatch) : Batch × MutableRecordBatch :=
  (⟨m.rowCount⟩, ⟨0⟩)

/-- PartitionBuffer: the frozen framed bytes plus the optional active
builder. -/
structure PartitionBuffer where
  frozen : ByteVec
  active : Option MutableRecordBatch
deriving Repr, DecidableEq

/-- PartitionBuffer::add_batch.  The pipeline from the Arrow IPC stream
writer through the CountedWriter into the zstd level-1 encoder is the
parameter encRes: on success it yields the pair of the byte count fed
into the encoder (the CountedWriter count) and the compressed bytes the
encoder emitted; on failure it yields the bytes the encoder had already
flushed into the output vector before the error surfaced.  The control
flow mirrors the source: write a 16-byte placeholder, run the encoder,
then patch the compressed length and the uncompressed length in place.
An error propagates after the placeholder, and whatever was flushed, has
been appended, exactly as the question-mark returns in the source leave
the mutated self behind. -/
def PartitionBuffer.add_batch (encRes : Batch → Except (List Nat) (Nat × List Nat))
    (growCap : Nat → Nat → Nat) (buf : PartitionBuffer) (batch : Batch) :
    PartitionBuffer × Except DFErr Nat :=
  if batch.numRows = 0 then (buf, .ok 0) else
    let memUsedOld := buf.frozen.cap
    let startPos := buf.frozen.data.length
    let out1 := buf.frozen.writeAll growCap (List.replicate 16 0)
    match encRes batch with
    | .error flushed => ({ buf with frozen := out1.writeAll growCap flushed }, .error .encoder)
    | .ok (writtenLength, compressed) =>
      let out2 := out1.writeAll growCap compressed
      let ipcLength := out2.data.length - startPos - 16
      let out3 := (out2.patchAt startPos (toLE64 ipcLength)).patchAt (startPos + 8)
        (toLE64 writtenLength)
      ({ buf with frozen := out3 }, .ok (out3.cap - memUsedOld))

/-- PartitionBuffer::finish: take the active builder, output and reset
it, freeze the resulting batch, and re-install the reset builder.  On an
add_batch error the question-mark return fires before the re-install, so
active stays None. -/
def PartitionBuffer.finish (encRes : Batch → Except (List Nat) (Nat × List Nat))
    (growCap : Nat → Nat → Nat) (buf : PartitionBuffer) :
    PartitionBuffer × Except DFErr Unit :=
  match buf.active with
  | none => (buf, .ok ())
  | some mutableBatch =>
    let out := mutableBatch.output_and_reset
    match PartitionBuffer.add_batch encRes growCap { buf with active := none } out.1 with
    | (buf1, .error e) => (buf1, .error e)
    | (buf1, .ok _) => ({ buf1 with active := some out.2 }, .ok ())

/-- SpillInfo: the named temp file is modelled by the bytes it contains,
next to the recorded per-partition offsets. -/
structure SpillInfo where
  contents : List Nat
  offsets : List Nat
deriving Repr, DecidableEq

/-- The bytes copied for partition i out of one spill file: seek to
offsets[i] and copy offsets[i+1] - offsets[i] bytes.  The source skips
the copy entirely when the length is zero, which appends the same (empty)
bytes. -/
def spillSlice (s : SpillInfo) (i : Nat) : List Nat :=
  (s.contents.drop (s.offsets.getD i 0)).take (s.offsets.getD (i + 1) 0 - s.offsets.getD i 0)

/-- The bytes shuffle_write emits for one output partition: the frozen
in-memory bytes taken from the buffer, then the contribution of each
spill in spill order. -/
def partBytes (outs : List (List Nat)) (spills : List SpillInfo) (i : Nat) : List Nat :=
  outs.getD i [] ++ (spills.map fun s => spillSlice s i).flatten

/-- The write loop of the blocking task in shuffle_write: fold over the
partitions, recording the stream position of each partition before
appending its bytes.  The result is the data file contents and the list
of recorded start offsets. -/
def writeLoop (outs : List (List Nat)) (spills : List SpillInfo) (P : Nat) :
    List Nat × List Nat :=
  (List.range P).foldl
    (fun acc i => (acc.1 ++ partBytes outs spills i, acc.2 ++ [acc.1.length])) ([], [])

/-- The full offsets vector of the task: the P recorded positions plus
the final stream position appended at the end. -/
def offsetsList (outs : List (List Nat)) (spills : List SpillInfo) (P : Nat) : List Nat :=
  (writeLoop outs spills P).2 ++ [(writeLoop outs spills P).1.length]

/-- The pair of files the blocking task of shuffle_write produces: the
data file bytes, and the index file bytes, the latter being each offset
written as a 64-bit little-endian integer. -/
def shuffleWriteTask (outs : List (List Nat)) (spills : List SpillInfo) (P : Nat) :
    List Nat × List Nat :=
  ((writeLoop outs spills P).1, ((offsetsList outs spills P).map toLE64).flatten)

/-- The finish-and-take loop shared by shuffle_write and spill_into:
finish each buffer in order and take its frozen bytes; the mem take
leaves a fresh empty vector of capacity zero.  An error stops the loop at
the failing buffer, leaving the later buffers untouched, as the
question-mark return in the source loop does. -/
def finishTakeAll (encRes : Batch → Except (List Nat) (Nat × List Nat))
    (growCap : Nat → Nat → Nat) :
    List PartitionBuffer → List PartitionBuffer × List (List Nat) × Except DFErr Unit
  | [] => ([], [], .ok ())
  | b :: rest =>
    match PartitionBuffer.finish encRes growCap b with
    | (b1, .error e) => (b1 :: rest, [], .error e)
    | (b1, .ok _) =>
      let r := finishTakeAll encRes growCap rest
      ({ b1 with frozen := ⟨[], 0⟩ } :: r.1, b1.frozen.data :: r.2.1, r.2.2)

/-- The DataFusion Partitioning enum, restricted to the variants the
source can encounter. -/
inductive Partitioning where
  | hash (exprs : List Nat) (n : Nat)
  | roundRobinBatch (n : Nat)
  | unknownPartitioning (n : Nat)
deriving Repr, DecidableEq

def Partitioning.partition_count : Partitioning → Nat
  | .hash _ n => n
  | .roundRobinBatch n => n
  | .unknownPartitioning n => n

/-- The ShuffleRepartitioner state: the partition buffers and spill list
(held behind async mutexes in the source, exclusive here), the
partitioning, and the metric counters of BaselineMetrics that the
methods touch. -/
structure ShuffleRepartitioner where
  buffered_partitions : List PartitionBuffer
  spills : List SpillInfo
  partitioning : Partitioning
  num_output_partitions : Nat
  mem_used : Nat
  output_rows : Nat
  spilled_bytes : Nat
  spill_count : Nat
deriving Repr, DecidableEq

/-- ShuffleRepartitioner::new: one default buffer per output partition,
no spills, zeroed metrics. -/
def ShuffleRepartitioner.new (partitioning : Partitioning) : ShuffleRepartitioner :=
  { buffered_partitions := List.replicate partitioning.partition_count ⟨⟨[], 0⟩, none⟩
    spills := []
    partitioning := partitioning
    num_output_partitions := partitioning.partition_count
    mem_used := 0
    output_rows := 0
    spilled_bytes := 0
    spill_count := 0 }

/-- ShuffleRepartitioner::shuffle_write: finish every buffer and take its
frozen bytes, drain the spills, run the blocking write task, then reset
mem_used.  The returned pair is the contents of the data file and of the
index file. -/
def ShuffleRepartitioner.shuffle_write (encRes : Batch → Except (List Nat) (Nat × List Nat))
    (growCap : Nat → Nat → Nat) (st : ShuffleRepartitioner) :
    ShuffleRepartitioner × Except DFErr (List Nat × List Nat) :=
  match finishTakeAll encRes growCap st.buffered_partitions with
  | (bufs, _, .error e) => ({ st with buffered_partitions := bufs }, .error e)
  | (bufs, outs, .ok _) =>
    let files := shuffleWriteTask outs st.spills st.num_output_partitions
    ({ st with buffered_partitions := bufs, spills := [], mem_used := 0 }, .ok files)

/-- The write loop of spill_into: concatenate the taken frozen bytes of
all partitions, recording each start position. -/
def spillLoop (outs : List (List Nat)) (P : Nat) : List Nat × List Nat :=
  (List.range P).foldl
    (fun acc i => (acc.1 ++ outs.getD i [], acc.2 ++ [acc.1.length])) ([], [])

/-- spill_into: finish the buffers, take their frozen bytes, write them
into a fresh temp file and return the file contents together with the
P + 1 offsets. -/
def spill_into (encRes : Batch → Except (List Nat) (Nat × List Nat))
    (growCap : Nat → Nat → Nat) (bufs : List PartitionBuffer) (P : Nat) :
    List PartitionBuffer × Except DFErr (List Nat × List Nat) :=
  match finishTakeAll encRes growCap bufs with
  | (bufs1, _, .error e) => (bufs1, .error e)
  | (bufs1, outs, .ok _) =>
    let dl := spillLoop outs P
    (bufs1, .ok (dl.1, dl.2 ++ [dl.1.length]))

/-- MemoryConsumer::spill for the ShuffleRepartitioner: return 0 early
iff the vector of partition buffers is empty, otherwise create a temp
file, run spill_into, append the SpillInfo, zero mem_used and record the
spill metrics, returning the freed amount. -/
def ShuffleRepartitioner.spill (encRes : Batch → Except (List Nat) (Nat × List Nat))
    (growCap : Nat → Nat → Nat) (st : ShuffleRepartitioner) :
    ShuffleRepartitioner × Except DFErr Nat :=
  if st.buffered_partitions.length = 0 then (st, .ok 0)
  else
    match spill_into encRes growCap st.buffered_partitions st.num_output_partitions with
    | (bufs, .error e) => ({ st with buffered_partitions := bufs }, .error e)
    | (bufs, .ok fo) =>
      let freed := st.mem_used
      ({ st with buffered_partitions := bufs
                 spills := st.spills ++ [⟨fo.1, fo.2⟩]
                 mem_used := 0
                 spilled_bytes := st.spilled_bytes + freed
                 spill_count := st.spill_count + 1 }, .ok freed)

/-- Modelled from the spec: pmod of spark_hash.rs, whose source file is
not part of this tree: ((h mod P) + P) mod P in signed arithmetic, using
the truncated mod that the Rust rem operator computes. -/
def pmod (h : Int) (n : Nat) : Nat :=
  ((h.tmod n + n).tmod n).toNat

/-- Modelled from the spec: create_hashes of spark_hash.rs, whose source
file is not part of this tree: fold every column into the per-row hash
buffer in column order, the combined value replacing the per-row seed;
the scalar combine step is the hashCol parameter. -/
def create_hashes (hashCol : Int → Int → Int) (arrays : List (List Int)) (buf : List Int) :
    List Int :=
  arrays.foldl (fun b col => (b.zip col).map fun p => hashCol p.2 p.1) buf

/-- One push of the bucket loop: append row index r to bucket b. -/
def pushRow (ind : List (List Nat)) (b : Nat) (r : Nat) : List (List Nat) :=
  ind.set b (ind.getD b [] ++ [r])

/-- The bucket loop of insert_batch: push every row index, in input
order, into the bucket selected by pmod of its hash. -/
def routeIndices (hashes : List Int) (P : Nat) : List (List Nat) :=
  hashes.enum.foldl (fun ind hr => pushRow ind (pmod hr.2 P) hr.1) (List.replicate P [])

/-- Evaluating the partition expressions against the input batch and
collecting the columns, stopping at the first error. -/
def evalExprs (eval : Nat → Batch → Except DFErr (List Int)) (exprs : List Nat)
    (input : Batch) : Except DFErr (List (List Int)) :=
  exprs.mapM fun e => eval e input

/-- ShuffleRepartitioner::insert_batch.  Empty batches are skipped; then
the output_rows metric is recorded, the uncompressed batch size is grown
from the arbiter and added to mem_used, and only then is the partitioning
examined.  The hash arm evaluates the expressions, seeds the hash buffer
with 42, routes rows by pmod of their hash, and hands the non-empty
buckets to the per-bucket gather, append and threshold-freeze work of the
source loop, which is the processBuckets parameter here. -/
def ShuffleRepartitioner.insert_batch (eval : Nat → Batch → Except DFErr (List Int))
    (hashCol : Int → Int → Int) (byteSize : Batch → Nat)
    (tryGrow : Nat → Except DFErr Unit)
    (processBuckets : ShuffleRepartitioner → Batch → List (Nat × List Nat) →
      ShuffleRepartitioner × Except DFErr Unit)
    (st : ShuffleRepartitioner) (input : Batch) :
    ShuffleRepartitioner × Except DFErr Unit :=
  if input.numRows = 0 then (st, .ok ()) else
    let st1 := { st with output_rows := st.output_rows + input.numRows }
    let batchMemSize := byteSize input
    match tryGrow batchMemSize with
    | .error e => (st1, .error e)
    | .ok _ =>
      let st2 := { st1 with mem_used := st1.mem_used + batchMemSize }
      match st2.partitioning with
      | .hash exprs _ =>
        match evalExprs eval exprs input with
        | .error e => (st2, .error e)
        | .ok arrays =>
          let hashes := create_hashes hashCol arrays
            (List.replicate (arrays.headD []).length 42)
          let ind := routeIndices hashes st2.num_output_partitions
          processBuckets st2 input (ind.enum.filter fun x => !x.2.isEmpty)
      | _ => (st2, .error .notImplemented)

/-- The ShuffleWriterExec plan node, restricted to the fields try_new
stores; the input child plan carries no information the claims need. -/
structure ShuffleWriterExec where
  partitioning : Partitioning
  output_data_file : String
  output_index_file : String
deriving Repr, DecidableEq

/-- ShuffleWriterExec::try_new: builds the node, performing no validation
of the partitioning scheme. -/
def ShuffleWriterExec.try_new (partitioning : Partitioning)
    (output_data_file output_index_file : String) : Except DFErr ShuffleWriterExec :=
  .ok { partitioning := partitioning
        output_data_file := output_data_file
        output_index_file := output_index_file }

/-- The frame grammar of a frozen byte buffer: a sequence of frames, each
made of an 8-byte little-endian compressed length that matches the
payload, an 8-byte little-endian uncompressed length, and the compressed
payload itself. -/
inductive WellFramed : List Nat → Prop
  | nil : WellFramed []
  | frame (u : Nat) (c rest : List Nat) (h : WellFramed rest) :
      WellFramed (toLE64 c.length ++ toLE64 u ++ c ++ rest)

/-- Whether an Except value is a success. -/
def isOkE {ε α : Type} : Except ε α → Bool
  | .ok _ => true
  | .error _ => false

/-- A concrete total encoder instance for witnesses. -/
def enc0 : Batch → Except (List Nat) (Nat × List Nat) := fun b => .ok (b.numRows, [7])

/-- A concrete failing encoder instance that had flushed one byte. -/
def encFail : Batch → Except (List Nat) (Nat × List Nat) := fun _ => .error [1]

/-- A concrete allocator growth policy for witnesses: exact fit. -/
def grow0 : Nat → Nat → Nat := fun c n => max c n

/-- A concrete expression evaluator for witnesses. -/
def eval0 : Nat → Batch → Except DFErr (List Int) := fun _ b => .ok (List.replicate b.numRows 3)

/-- A concrete failing expression evaluator for witnesses. -/
def evalBad : Nat → Batch → Except DFErr (List Int) := fun _ _ => .error .execution

/-- A concrete column hash combine step for witnesses. -/
def hashCol0 : Int → Int → Int := fun v h => v + h

/-- A concrete uncompressed batch size for witnesses. -/
def byteSize0 : Batch → Nat := fun b => 8 * b.numRows

/-- A concrete always-granting arbiter for witnesses. -/
def tryGrow0 : Nat → Except DFErr Unit := fun _ => .ok ()

/-- A concrete per-bucket processing step for witnesses. -/
def procB0 : ShuffleRepartitioner → Batch → List (Nat × List Nat) →
    ShuffleRepartitioner × Except DFErr Unit := fun st _ _ => (st, .ok ())

/-- A repartitioner with one output partition whose single buffer holds
an active builder with two buffered rows. -/
def stActive : ShuffleRepartitioner :=
  { ShuffleRepartitioner.new (.hash [0] 1) with
      buffered_partitions := [⟨⟨[], 0⟩, some ⟨2⟩⟩], mem_used := 5 }


/-! Basic facts about the byte encodings. -/

theorem toLE64_length (n : Nat) : (toLE64 n).length = 8 := by
  simp [toLE64]

theorem flatten_map_toLE64_length (l : List Nat) :
    ((l.map toLE64).flatten).length = 8 * l.length := by
  induction l with
  | nil => simp
  | cons a t ih => simp [toLE64_length, ih]; omega

/-! Facts about add_batch. -/

theorem add_batch_zero (e : Batch → Except (List Nat) (Nat × List Nat))
    (g : Nat → Nat → Nat) (b : PartitionBuffer) (x : Batch) (h : x.numRows = 0) :
    PartitionBuffer.add_batch e g b x = (b, .ok 0) := by
  unfold PartitionBuffer.add_batch
  simp [h]

theorem add_batch_active (e : Batch → Except (List Nat) (Nat × List Nat))
    (g : Nat → Nat → Nat) (b : PartitionBuffer) (x : Batch) :
    ((PartitionBuffer.add_batch e g b x).1).active = b.active := by
  unfold PartitionBuffer.add_batch
  split
  · rfl
  · split <;> rfl

theorem patchAt_cap (v : ByteVec) (pos : Nat) (bs : List Nat) :
    (v.patchAt pos bs).cap = v.cap := rfl

theorem patch_mid (v : ByteVec) (pos : Nat) (a b rest bs : List Nat)
    (hv : v.data = a ++ (b ++ rest)) (hb : bs.length = b.length) (hpos : pos = a.length) :
    (v.patchAt pos bs).data = a ++ (bs ++ rest) := by
  subst hpos
  unfold ByteVec.patchAt
  simp only [hv]
  rw [List.take_left]
  have hdrop : (a ++ (b ++ rest)).drop (a.length + bs.length) = rest := by
    rw [hb, show a.length + b.length = (a ++ b).length by simp,
      show a ++ (b ++ rest) = (a ++ b) ++ rest by simp, List.drop_left]
  rw [hdrop]
  simp [List.append_assoc]

theorem add_batch_ok_eq (e : Batch → Except (List Nat) (Nat × List Nat))
    (g : Nat → Nat → Nat) (buf : PartitionBuffer) (batch : Batch) (u : Nat) (c : List Nat)
    (hn : batch.numRows ≠ 0) (henc : e batch = .ok (u, c)) :
    PartitionBuffer.add_batch e g buf batch
      = ({ buf with frozen :=
            ⟨buf.frozen.data ++ (toLE64 c.length ++ (toLE64 u ++ c)),
             g (g buf.frozen.cap (buf.frozen.data.length + 16))
               (buf.frozen.data.length + 16 + c.length)⟩ },
         .ok (g (g buf.frozen.cap (buf.frozen.data.length + 16))
               (buf.frozen.data.length + 16 + c.length) - buf.frozen.cap)) := by
  unfold PartitionBuffer.add_batch
  rw [if_neg hn, henc]
  simp only [ByteVec.writeAll, List.length_replicate, List.length_append]
  set old := buf.frozen.data with hold
  set K := g (g buf.frozen.cap (old.length + 16)) (old.length + 16 + c.length) with hK
  set v2 : ByteVec := ⟨(old ++ List.replicate 16 (0 : Nat)) ++ c, K⟩ with hv2
  have hd2 : v2.data = old ++ (List.replicate 8 (0 : Nat) ++ (List.replicate 8 (0 : Nat) ++ c)) := by
    rw [hv2]
    rw [show List.replicate 16 (0 : Nat) = List.replicate 8 (0 : Nat) ++ List.replicate 8 (0 : Nat)
      from by rw [← List.replicate_add]]
    simp [List.append_assoc]
  set v3 := v2.patchAt old.length (toLE64 c.length) with hv3
  have hpatch1 : v3.data = old ++ (toLE64 c.length ++ (List.replicate 8 (0 : Nat) ++ c)) := by
    rw [hv3]
    exact patch_mid v2 old.length old (List.replicate 8 (0 : Nat))
      (List.replicate 8 (0 : Nat) ++ c) (toLE64 c.length) hd2 (by simp [toLE64_length]) rfl
  have hregroup : v3.data = (old ++ toLE64 c.length) ++ (List.replicate 8 (0 : Nat) ++ c) := by
    rw [hpatch1]; simp [List.append_assoc]
  have hpatch2 : (v3.patchAt (old.length + 8) (toLE64 u)).data
      = old ++ (toLE64 c.length ++ (toLE64 u ++ c)) := by
    have := patch_mid v3 (old.length + 8) (old ++ toLE64 c.length)
      (List.replicate 8 (0 : Nat)) c (toLE64 u) hregroup
      (by simp [toLE64_length]) (by simp [toLE64_length])
    rw [this]; simp [List.append_assoc]
  have hcap3 : (v3.patchAt (old.length + 8) (toLE64 u)).cap = K := rfl
  have hfin : v3.patchAt (old.length + 8) (toLE64 u)
      = ⟨old ++ (toLE64 c.length ++ (toLE64 u ++ c)), K⟩ := by
    have hsplit : v3.patchAt (old.length + 8) (toLE64 u)
        = ⟨(v3.patchAt (old.length + 8) (toLE64 u)).data,
           (v3.patchAt (old.length + 8) (toLE64 u)).cap⟩ := rfl
    rw [hsplit, hpatch2, hcap3]
  rw [show old.length + 16 + c.length - old.length - 16 = c.length from by omega]
  rw [← hv3, hfin]


/-- C4: for every non-empty batch frozen into a PartitionBuffer, add_batch
appends exactly one frame: the 8-byte little-endian compressed length,
the 8-byte little-endian uncompressed length (the bytes fed into the
encoder), then the compressed stream; and the returned value is the
increase in the byte capacity of frozen. -/
theorem claim_C4 (e : Batch → Except (List Nat) (Nat × List Nat))
    (g : Nat → Nat → Nat) (buf : PartitionBuffer) (batch : Batch) (u : Nat) (c : List Nat)
    (hn : batch.numRows ≠ 0) (henc : e batch = .ok (u, c)) :
    ((PartitionBuffer.add_batch e g buf batch).1).frozen.data
        = buf.frozen.data ++ (toLE64 c.length ++ (toLE64 u ++ c))
    ∧ (PartitionBuffer.add_batch e g buf batch).2
        = .ok (((PartitionBuffer.add_batch e g buf batch).1).frozen.cap - buf.frozen.cap) := by
  rw [add_batch_ok_eq e g buf batch u c hn henc]
  exact ⟨rfl, rfl⟩

/-- C4 witness: a concrete two-row batch through the concrete encoder. -/
theorem claim_C4_witness :
    ((PartitionBuffer.add_batch enc0 grow0 ⟨⟨[], 0⟩, none⟩ ⟨2⟩).1).frozen.data
        = (⟨⟨[], 0⟩, none⟩ : PartitionBuffer).frozen.data
            ++ (toLE64 [(7 : Nat)].length ++ (toLE64 2 ++ [7]))
    ∧ (PartitionBuffer.add_batch enc0 grow0 ⟨⟨[], 0⟩, none⟩ ⟨2⟩).2
        = .ok (((PartitionBuffer.add_batch enc0 grow0 ⟨⟨[], 0⟩, none⟩ ⟨2⟩).1).frozen.cap
            - (⟨⟨[], 0⟩, none⟩ : PartitionBuffer).frozen.cap) :=
  claim_C4 enc0 grow0 ⟨⟨[], 0⟩, none⟩ ⟨2⟩ 2 [7] (by decide) rfl

/-! The frame grammar. -/

theorem wf_append (a b : List Nat) (ha : WellFramed a) (hb : WellFramed b) :
    WellFramed (a ++ b) := by
  induction ha with
  | nil => simpa using hb
  | frame u c rest h ih =>
    rw [show (toLE64 c.length ++ toLE64 u ++ c ++ rest) ++ b
      = toLE64 c.length ++ toLE64 u ++ c ++ (rest ++ b) from by simp [List.append_assoc]]
    exact WellFramed.frame u c (rest ++ b) ih

theorem wf_single (u : Nat) (c : List Nat) :
    WellFramed (toLE64 c.length ++ (toLE64 u ++ c)) := by
  have := WellFramed.frame u c [] WellFramed.nil
  simpa [List.append_assoc] using this

theorem wf_inversion (L : List Nat) (h : WellFramed L) :
    L = [] ∨ ∃ u c rest, WellFramed rest ∧ L = toLE64 c.length ++ toLE64 u ++ c ++ rest := by
  cases h with
  | nil => exact Or.inl rfl
  | frame u c rest hr => exact Or.inr ⟨u, c, rest, hr, rfl⟩

theorem wf_len (L : List Nat) (h : WellFramed L) : L = [] ∨ 16 ≤ L.length := by
  rcases wf_inversion L h with h0 | ⟨u, c, rest, hr, heq⟩
  · exact Or.inl h0
  · right
    rw [heq]
    simp [toLE64_length]
    omega

/-- C8 amended: as long as add_batch returns successfully, every byte of
frozen stays inside a complete frame; on a failure partway through the
encoding the placeholder header and the flushed bytes persist, so this
holds only for the success path. -/
theorem claim_C8_amended (e : Batch → Except (List Nat) (Nat × List Nat))
    (g : Nat → Nat → Nat) (buf : PartitionBuffer) (batch : Batch) (v : Nat)
    (hwf : WellFramed buf.frozen.data)
    (hok : (PartitionBuffer.add_batch e g buf batch).2 = .ok v) :
    WellFramed ((PartitionBuffer.add_batch e g buf batch).1).frozen.data := by
  by_cases hn : batch.numRows = 0
  · rw [add_batch_zero e g buf batch hn]
    exact hwf
  · cases henc : e batch with
    | error fl =>
      exfalso
      unfold PartitionBuffer.add_batch at hok
      rw [if_neg hn, henc] at hok
      simp at hok
    | ok p =>
      rw [add_batch_ok_eq e g buf batch p.1 p.2 hn (by rw [henc])]
      exact wf_append _ _ hwf (wf_single p.1 p.2)

/-- C8 witness for the amended success path. -/
theorem claim_C8_witness :
    WellFramed ((PartitionBuffer.add_batch enc0 grow0 ⟨⟨[], 0⟩, none⟩ ⟨2⟩).1).frozen.data :=
  claim_C8_amended enc0 grow0 ⟨⟨[], 0⟩, none⟩ ⟨2⟩ 17 WellFramed.nil rfl

/-- C8 counterexample: an encoder failure that had flushed one byte
leaves the 16-byte placeholder plus that byte in frozen, which no frame
decomposition covers, refuting the claim for the error path. -/
theorem claim_C8_counterexample :
    (PartitionBuffer.add_batch encFail grow0 ⟨⟨[], 0⟩, none⟩ ⟨1⟩).2 = .error .encoder
    ∧ ¬ WellFramed ((PartitionBuffer.add_batch encFail grow0 ⟨⟨[], 0⟩, none⟩ ⟨1⟩).1).frozen.data := by
  constructor
  · rfl
  · intro h
    have hdata : ((PartitionBuffer.add_batch encFail grow0 ⟨⟨[], 0⟩, none⟩ ⟨1⟩).1).frozen.data
        = List.replicate 16 0 ++ [1] := by rfl
    rw [hdata] at h
    rcases wf_inversion _ h with h0 | ⟨u, c, rest, hr, heq⟩
    · simp at h0
    · have hlen := congrArg List.length heq
      simp [toLE64_length] at hlen
      rcases wf_len rest hr with hrest0 | hrest16
      · subst hrest0
        simp at hlen
        have hc1 : c.length = 1 := by omega
        rw [hc1] at heq
        have ht : toLE64 1 = 1 :: [0, 0, 0, 0, 0, 0, 0] := by decide
        rw [ht] at heq
        have hrep : List.replicate 16 (0 : Nat) ++ [1]
            = 0 :: (List.replicate 15 0 ++ [1]) := by
          rw [show (16 : Nat) = 15 + 1 from rfl, List.replicate_succ]
          rfl
        rw [hrep] at heq
        simp at heq
      · omega

/-- C9: PartitionBuffer::finish is idempotent on the frozen bytes: the
second call re-takes the reset (empty) builder, whose zero-row output is
skipped by add_batch, so frozen does not change; on the error path the
builder was not re-installed and the second call is a no-op. -/
theorem claim_C9 (e : Batch → Except (List Nat) (Nat × List Nat))
    (g : Nat → Nat → Nat) (buf : PartitionBuffer) :
    ((PartitionBuffer.finish e g (PartitionBuffer.finish e g buf).1).1).frozen
      = ((PartitionBuffer.finish e g buf).1).frozen := by
  rcases buf with ⟨fz, act⟩
  cases act with
  | none => rfl
  | some m =>
    rcases hab : PartitionBuffer.add_batch e g ⟨fz, none⟩ ⟨m.rowCount⟩ with ⟨buf1, r⟩
    rcases buf1 with ⟨fz1, act1⟩
    have hone := add_batch_active e g ⟨fz, none⟩ ⟨m.rowCount⟩
    rw [hab] at hone
    have hact1 : act1 = none := by simpa using hone
    subst hact1
    cases r with
    | error err =>
      have h1 : PartitionBuffer.finish e g ⟨fz, some m⟩ = (⟨fz1, none⟩, .error err) := by
        unfold PartitionBuffer.finish
        simp only [MutableRecordBatch.output_and_reset]
        rw [hab]
      rw [h1]
      rfl
    | ok v =>
      have h1 : PartitionBuffer.finish e g ⟨fz, some m⟩ = (⟨fz1, some ⟨0⟩⟩, .ok ()) := by
        unfold PartitionBuffer.finish
        simp only [MutableRecordBatch.output_and_reset]
        rw [hab]
      rw [h1]
      rfl


/-! The write loop of the blocking task. -/

theorem writeLoop_succ (outs : List (List Nat)) (spills : List SpillInfo) (P : Nat) :
    writeLoop outs spills (P + 1)
      = ((writeLoop outs spills P).1 ++ partBytes outs spills P,
         (writeLoop outs spills P).2 ++ [(writeLoop outs spills P).1.length]) := by
  unfold writeLoop
  rw [List.range_succ, List.foldl_append]
  rfl

theorem writeLoop_snd_length (outs : List (List Nat)) (spills : List SpillInfo) (P : Nat) :
    (writeLoop outs spills P).2.length = P := by
  induction P with
  | zero => rfl
  | succ P ih =>
    rw [writeLoop_succ]
    simp [ih]

theorem offsetsList_length (outs : List (List Nat)) (spills : List SpillInfo) (P : Nat) :
    (offsetsList outs spills P).length = P + 1 := by
  unfold offsetsList
  simp [writeLoop_snd_length]

theorem offsetsList_succ (outs : List (List Nat)) (spills : List SpillInfo) (P : Nat) :
    offsetsList outs spills (P + 1)
      = offsetsList outs spills P ++ [(writeLoop outs spills (P + 1)).1.length] := by
  unfold offsetsList
  rw [writeLoop_succ]

theorem getD_append_lt (l1 l2 : List Nat) (j d : Nat) (h : j < l1.length) :
    (l1 ++ l2).getD j d = l1.getD j d := by
  simp [List.getD_eq_getElem?_getD, List.getElem?_append, h]

theorem getD_append_len (l1 l2 : List Nat) (j d : Nat) (h : l1.length ≤ j) :
    (l1 ++ l2).getD j d = l2.getD (j - l1.length) d := by
  simp [List.getD_eq_getElem?_getD, List.getElem?_append_right h]

theorem offsetsList_last (outs : List (List Nat)) (spills : List SpillInfo) (P : Nat) :
    (offsetsList outs spills P).getD P 0 = (writeLoop outs spills P).1.length := by
  unfold offsetsList
  rw [getD_append_len _ _ P 0 (by rw [writeLoop_snd_length])]
  simp [writeLoop_snd_length]

theorem offsetsList_getD_le (outs : List (List Nat)) (spills : List SpillInfo) (P : Nat) :
    ∀ j, j ≤ P → (offsetsList outs spills P).getD j 0 ≤ (writeLoop outs spills P).1.length := by
  induction P with
  | zero =>
    intro j hj
    have hj0 : j = 0 := by omega
    subst hj0
    simp [offsetsList, writeLoop]
  | succ P ih =>
    intro j hj
    rw [offsetsList_succ]
    rcases Nat.lt_or_ge j (P + 1) with hlt | hge
    · rw [getD_append_lt _ _ _ _ (by rw [offsetsList_length]; omega)]
      calc (offsetsList outs spills P).getD j 0
          ≤ (writeLoop outs spills P).1.length := ih j (by omega)
        _ ≤ (writeLoop outs spills (P + 1)).1.length := by
            rw [writeLoop_succ]; simp
    · have hj1 : j = P + 1 := by omega
      subst hj1
      rw [getD_append_len _ _ _ _ (by rw [offsetsList_length])]
      simp [offsetsList_length]

theorem offsetsList_chain (outs : List (List Nat)) (spills : List SpillInfo) (P : Nat) :
    List.Chain' (· ≤ ·) (offsetsList outs spills P) := by
  induction P with
  | zero => simp [offsetsList, writeLoop]
  | succ P ih =>
    rw [offsetsList_succ]
    apply List.Chain'.append ih (List.chain'_singleton _)
    intro x hx y hy
    have hxval : (writeLoop outs spills P).1.length = x := by
      unfold offsetsList at hx
      rw [List.getLast?_concat] at hx
      simpa using hx
    have hyval : (writeLoop outs spills (P + 1)).1.length = y := by
      simpa using hy
    subst hxval hyval
    rw [writeLoop_succ]
    simp

theorem writeLoop_seg (outs : List (List Nat)) (spills : List SpillInfo) :
    ∀ P i, i < P →
      ((writeLoop outs spills P).1.drop ((offsetsList outs spills P).getD i 0)).take
          ((offsetsList outs spills P).getD (i + 1) 0 - (offsetsList outs spills P).getD i 0)
        = partBytes outs spills i := by
  intro P
  induction P with
  | zero =>
    intro i hi
    omega
  | succ P ih =>
    intro i hi
    rcases Nat.lt_or_ge i P with hlt | hge
    · have hs1 : (offsetsList outs spills (P + 1)).getD i 0
          = (offsetsList outs spills P).getD i 0 := by
        rw [offsetsList_succ]
        exact getD_append_lt _ _ _ _ (by rw [offsetsList_length]; omega)
      have hs2 : (offsetsList outs spills (P + 1)).getD (i + 1) 0
          = (offsetsList outs spills P).getD (i + 1) 0 := by
        rw [offsetsList_succ]
        exact getD_append_lt _ _ _ _ (by rw [offsetsList_length]; omega)
      rw [writeLoop_succ, hs1, hs2]
      have hb1 : (offsetsList outs spills P).getD i 0 ≤ (writeLoop outs spills P).1.length :=
        offsetsList_getD_le outs spills P i (by omega)
      have hb2 : (offsetsList outs spills P).getD (i + 1) 0
          ≤ (writeLoop outs spills P).1.length :=
        offsetsList_getD_le outs spills P (i + 1) (by omega)
      have hdrop : ((writeLoop outs spills P).1 ++ partBytes outs spills P).drop
            ((offsetsList outs spills P).getD i 0)
          = (writeLoop outs spills P).1.drop ((offsetsList outs spills P).getD i 0)
            ++ partBytes outs spills P := by
        rw [List.drop_append_eq_append_drop, Nat.sub_eq_zero_of_le hb1]
        rfl
      rw [hdrop]
      have hlen : (offsetsList outs spills P).getD (i + 1) 0
            - (offsetsList outs spills P).getD i 0
          ≤ ((writeLoop outs spills P).1.drop ((offsetsList outs spills P).getD i 0)).length := by
        rw [List.length_drop]
        omega
      have htake : ((writeLoop outs spills P).1.drop ((offsetsList outs spills P).getD i 0)
            ++ partBytes outs spills P).take
            ((offsetsList outs spills P).getD (i + 1) 0
              - (offsetsList outs spills P).getD i 0)
          = ((writeLoop outs spills P).1.drop ((offsetsList outs spills P).getD i 0)).take
            ((offsetsList outs spills P).getD (i + 1) 0
              - (offsetsList outs spills P).getD i 0) := by
        rw [List.take_append_eq_append_take, Nat.sub_eq_zero_of_le hlen]
        simp
      rw [htake]
      exact ih i hlt
    · have hip : P = i := by omega
      subst hip
      have h1 : (offsetsList outs spills (P + 1)).getD P 0
          = (writeLoop outs spills P).1.length := by
        rw [offsetsList_succ, getD_append_lt _ _ _ _ (by rw [offsetsList_length]; omega),
          offsetsList_last]
      have h2 : (offsetsList outs spills (P + 1)).getD (P + 1) 0
          = (writeLoop outs spills P).1.length + (partBytes outs spills P).length := by
        rw [offsetsList_last, writeLoop_succ]
        simp
      rw [writeLoop_succ, h1, h2, List.drop_left, Nat.add_sub_cancel_left, List.take_length]

theorem chain_le_getD (l : List Nat) (h : List.Chain' (· ≤ ·) l) (j k : Nat)
    (hjk : j ≤ k) (hk : k < l.length) : l.getD j 0 ≤ l.getD k 0 := by
  rcases Nat.eq_or_lt_of_le hjk with he | hlt
  · subst he
    exact Nat.le_refl _
  · have hp : List.Pairwise (· ≤ ·) l := List.chain'_iff_pairwise.mp h
    have hj : j < l.length := by omega
    have hjk2 := List.pairwise_iff_getElem.mp hp j k hj hk hlt
    simpa [List.getD_eq_getElem?_getD, List.getElem?_eq_getElem hj,
      List.getElem?_eq_getElem hk] using hjk2

/-- C1: for every run of the finalize write task over P output
partitions, the produced index file is exactly P + 1 little-endian 64-bit
integers (8 * (P + 1) bytes, the offsets, written as i64), the offsets
are non-decreasing, and the last one equals the byte length of the
produced data file. -/
theorem claim_C1 (outs : List (List Nat)) (spills : List SpillInfo) (P : Nat) :
    ∃ offsets : List Nat,
      (shuffleWriteTask outs spills P).2 = (offsets.map toLE64).flatten
      ∧ offsets.length = P + 1
      ∧ (shuffleWriteTask outs spills P).2.length = 8 * (P + 1)
      ∧ List.Chain' (· ≤ ·) offsets
      ∧ offsets.getD P 0 = (shuffleWriteTask outs spills P).1.length := by
  refine ⟨offsetsList outs spills P, rfl, offsetsList_length outs spills P, ?_,
    offsetsList_chain outs spills P, offsetsList_last outs spills P⟩
  show ((offsetsList outs spills P).map toLE64).flatten.length = 8 * (P + 1)
  rw [flatten_map_toLE64_length, offsetsList_length]

/-- C2: the byte range of the data file that the finalize write task
assigns to partition i holds first the in-memory frozen bytes taken from
buffer i, then, for each spill in spill order, exactly the
offsets[i+1] - offsets[i] bytes of that spill file starting at
offsets[i]. -/
theorem claim_C2 (outs : List (List Nat)) (spills : List SpillInfo) (P i : Nat)
    (hi : i < P)
    (hwf : ∀ s ∈ spills, s.offsets.length = P + 1 ∧ List.Chain' (· ≤ ·) s.offsets
      ∧ s.offsets.getD P 0 ≤ s.contents.length) :
    ((shuffleWriteTask outs spills P).1.drop ((offsetsList outs spills P).getD i 0)).take
        ((offsetsList outs spills P).getD (i + 1) 0 - (offsetsList outs spills P).getD i 0)
      = outs.getD i [] ++ (spills.map fun s => spillSlice s i).flatten
    ∧ ∀ s ∈ spills, (spillSlice s i).length
        = s.offsets.getD (i + 1) 0 - s.offsets.getD i 0 := by
  constructor
  · exact writeLoop_seg outs spills P i hi
  · intro s hs
    obtain ⟨hlen, hchain, hle⟩ := hwf s hs
    have hbound : s.offsets.getD (i + 1) 0 ≤ s.contents.length := by
      have h1 : s.offsets.getD (i + 1) 0 ≤ s.offsets.getD P 0 := by
        apply chain_le_getD s.offsets hchain (i + 1) P (by omega)
        rw [hlen]
        omega
      omega
    unfold spillSlice
    rw [List.length_take, List.length_drop]
    omega

/-- C2 witness: a two-partition run with one spill. -/
theorem claim_C2_witness :
    ((shuffleWriteTask [[9], [8, 8]] [⟨[5, 6, 7], [0, 1, 3]⟩] 2).1.drop
        ((offsetsList [[9], [8, 8]] [⟨[5, 6, 7], [0, 1, 3]⟩] 2).getD 0 0)).take
        ((offsetsList [[9], [8, 8]] [⟨[5, 6, 7], [0, 1, 3]⟩] 2).getD (0 + 1) 0
          - (offsetsList [[9], [8, 8]] [⟨[5, 6, 7], [0, 1, 3]⟩] 2).getD 0 0)
      = [[9], [8, 8]].getD 0 []
        ++ ([⟨[5, 6, 7], [0, 1, 3]⟩].map fun s => spillSlice s 0).flatten :=
  (claim_C2 [[9], [8, 8]] [⟨[5, 6, 7], [0, 1, 3]⟩] 2 0 (by decide)
    (by
      intro s hs
      simp only [List.mem_singleton] at hs
      subst hs
      refine ⟨rfl, ?_, by simp⟩
      norm_num [List.chain'_cons])).1



/-! The hash partitioner. -/

theorem neg_tmod (a b : Int) : (-a).tmod b = -(a.tmod b) := by
  rw [Int.tmod_def, Int.tmod_def, Int.neg_tdiv]
  ring

theorem tmod_gt_neg (a : Int) (n : Nat) (hn : 0 < n) : -(n : Int) < a.tmod n := by
  rcases Int.le_or_lt 0 a with hp | hneg
  · have h0 : (0 : Int) ≤ a.tmod n := Int.tmod_nonneg _ hp
    have hcast : (0 : Int) < (n : Int) := by exact_mod_cast hn
    omega
  · have h1 : (-a).tmod n < n := Int.tmod_lt_of_pos _ (by exact_mod_cast hn)
    rw [neg_tmod] at h1
    omega

theorem pmod_lt (h : Int) (n : Nat) (hn : 0 < n) : pmod h n < n := by
  unfold pmod
  have hcast : (0 : Int) < (n : Int) := by exact_mod_cast hn
  have hlow : -(n : Int) < h.tmod n := tmod_gt_neg h n hn
  have hnn : (0 : Int) ≤ h.tmod n + n := by omega
  have h3 : 0 ≤ (h.tmod n + n).tmod n := Int.tmod_nonneg _ hnn
  have h2 : (h.tmod n + n).tmod n < n := Int.tmod_lt_of_pos _ hcast
  omega

theorem create_hashes_length (hc : Int → Int → Int) :
    ∀ (arrays : List (List Int)) (buf : List Int),
      (∀ a ∈ arrays, a.length = buf.length) →
      (create_hashes hc arrays buf).length = buf.length := by
  intro arrays
  induction arrays with
  | nil =>
    intro buf _
    rfl
  | cons a t ih =>
    intro buf h
    have hstep : create_hashes hc (a :: t) buf
        = create_hashes hc t ((buf.zip a).map fun p => hc p.2 p.1) := rfl
    rw [hstep]
    have hlen : ((buf.zip a).map fun p => hc p.2 p.1).length = buf.length := by
      have ha : a.length = buf.length := h a (by simp)
      simp [List.length_zip, ha]
    rw [ih ((buf.zip a).map fun p => hc p.2 p.1) ?_, hlen]
    intro x hx
    rw [hlen]
    exact h x (List.mem_cons_of_mem _ hx)

theorem getD_set_self (l : List (List Nat)) (b : Nat) (x : List Nat) (hb : b < l.length) :
    (l.set b x).getD b [] = x := by
  simp [List.getD_eq_getElem?_getD, List.getElem?_set_self hb]

theorem getD_set_ne (l : List (List Nat)) (b b2 : Nat) (x : List Nat) (h : b ≠ b2) :
    (l.set b x).getD b2 [] = l.getD b2 [] := by
  simp [List.getD_eq_getElem?_getD, List.getElem?_set_ne h]

theorem route_aux (P : Nat) (_hP : 0 < P) :
    ∀ (hs : List Int) (k : Nat) (ind : List (List Nat)), ind.length = P →
      ∀ b, b < P →
        ((List.enumFrom k hs).foldl
            (fun ind hr => pushRow ind (pmod hr.2 P) hr.1) ind).getD b []
          = ind.getD b []
            ++ ((List.range hs.length).filter
                (fun j => pmod (hs.getD j 0) P == b)).map (fun j => j + k) := by
  intro hs
  induction hs with
  | nil =>
    intro k ind hind b hb
    simp
  | cons h t iht =>
    intro k ind hind b hb
    rw [List.enumFrom_cons, List.foldl_cons]
    have hlen1 : (pushRow ind (pmod h P) k).length = P := by
      unfold pushRow
      simp [hind]
    rw [iht (k + 1) (pushRow ind (pmod h P) k) hlen1 b hb]
    have hrange : List.range (t.length + 1) = 0 :: (List.range t.length).map Nat.succ :=
      List.range_succ_eq_map t.length
    have hgetD0 : (h :: t).getD 0 0 = h := rfl
    rw [show (h :: t).length = t.length + 1 from rfl, hrange]
    rw [List.filter_cons]
    have hfm : ((List.range t.length).map Nat.succ).filter
          (fun j => pmod ((h :: t).getD j 0) P == b)
        = ((List.range t.length).filter
            (fun j => pmod (t.getD j 0) P == b)).map Nat.succ := by
      rw [List.filter_map]
      rfl
    rw [hfm]
    by_cases hpb : pmod h P = b
    · rw [if_pos (by simp [hgetD0, hpb])]
      have hpush : (pushRow ind (pmod h P) k).getD b [] = ind.getD b [] ++ [k] := by
        unfold pushRow
        rw [hpb]
        exact getD_set_self ind b _ (by rw [hind]; exact hb)
      rw [hpush]
      simp [List.map_map, Function.comp, Nat.succ_eq_add_one]
      intro a _ _
      omega
    · rw [if_neg (by simp [hgetD0, hpb])]
      have hpush : (pushRow ind (pmod h P) k).getD b [] = ind.getD b [] := by
        unfold pushRow
        exact getD_set_ne ind (pmod h P) b _ hpb
      rw [hpush]
      simp [List.map_map, Function.comp, Nat.succ_eq_add_one]
      intro a _ _
      omega

theorem routeIndices_getD (hashes : List Int) (P : Nat) (hP : 0 < P) (b : Nat) (hb : b < P) :
    (routeIndices hashes P).getD b []
      = (List.range hashes.length).filter (fun j => pmod (hashes.getD j 0) P == b) := by
  unfold routeIndices
  have hrep : (List.replicate P ([] : List Nat)).length = P := by simp
  have hmain := route_aux P hP hashes 0 (List.replicate P []) hrep b hb
  have hrepD : (List.replicate P ([] : List Nat)).getD b [] = [] := by
    simp [List.getD_eq_getElem?_getD]
  rw [hrepD] at hmain
  simpa using hmain



/-- C3: for every set of evaluated partition columns under hash
partitioning with P partitions, the per-row hash buffer starts from the
seed 42 before the columns are folded in, every row r lands in bucket
pmod(hash[r], P), and each bucket keeps its row indices in increasing
input order. -/
theorem claim_C3 (hashCol : Int → Int → Int) (arrays : List (List Int)) (P : Nat)
    (hashes : List Int) (hP : 0 < P)
    (hlen : ∀ a ∈ arrays, a.length = (arrays.headD []).length)
    (hh : hashes = create_hashes hashCol arrays
      (List.replicate (arrays.headD []).length 42)) :
    hashes.length = (arrays.headD []).length
    ∧ (∀ r, r < hashes.length →
        r ∈ (routeIndices hashes P).getD (pmod (hashes.getD r 0) P) [])
    ∧ (∀ b, b < P →
        List.Pairwise (· < ·) ((routeIndices hashes P).getD b [])
        ∧ ∀ r ∈ (routeIndices hashes P).getD b [],
            pmod (hashes.getD r 0) P = b ∧ r < hashes.length) := by
  have hlen2 : hashes.length = (arrays.headD []).length := by
    rw [hh]
    have := create_hashes_length hashCol arrays
      (List.replicate (arrays.headD []).length 42)
      (fun a ha => by rw [List.length_replicate]; exact hlen a ha)
    rw [this]
    simp
  refine ⟨hlen2, ?_, ?_⟩
  · intro r hr
    have hb : pmod (hashes.getD r 0) P < P := pmod_lt _ _ hP
    rw [routeIndices_getD hashes P hP _ hb]
    simp only [List.mem_filter, List.mem_range]
    exact ⟨hr, by simp⟩
  · intro b hb
    rw [routeIndices_getD hashes P hP b hb]
    constructor
    · exact (List.sorted_lt_range _).filter _
    · intro r hrmem
      simp only [List.mem_filter, List.mem_range] at hrmem
      refine ⟨?_, hrmem.1⟩
      have := hrmem.2
      simpa using this

/-- C3 witness: one two-row column under two output partitions. -/
theorem claim_C3_witness :
    0 ∈ (routeIndices (create_hashes hashCol0 [[3, 4]] (List.replicate 2 42)) 2).getD
      (pmod ((create_hashes hashCol0 [[3, 4]] (List.replicate 2 42)).getD 0 0) 2) [] := by
  have h := claim_C3 hashCol0 [[3, 4]] 2
    (create_hashes hashCol0 [[3, 4]] (List.replicate 2 42))
    (by decide) (by decide) (by rfl)
  exact h.2.1 0 (by decide)


/-! The finish-and-take loop. -/

theorem finish_ok_active (e : Batch → Except (List Nat) (Nat × List Nat))
    (g : Nat → Nat → Nat) (b b1 : PartitionBuffer) (u : Unit)
    (h : PartitionBuffer.finish e g b = (b1, .ok u)) :
    b1.active = none ∨ b1.active = some ⟨0⟩ := by
  rcases b with ⟨fz, act⟩
  cases act with
  | none =>
    have hfin : PartitionBuffer.finish e g ⟨fz, none⟩ = (⟨fz, none⟩, .ok ()) := rfl
    rw [hfin] at h
    simp only [Prod.mk.injEq] at h
    left
    rw [← h.1]
  | some m =>
    rcases hab : PartitionBuffer.add_batch e g ⟨fz, none⟩ ⟨m.rowCount⟩ with ⟨bb, r⟩
    cases r with
    | error err =>
      have h1 : PartitionBuffer.finish e g ⟨fz, some m⟩ = (bb, .error err) := by
        unfold PartitionBuffer.finish
        simp only [MutableRecordBatch.output_and_reset]
        rw [hab]
      rw [h1] at h
      simp at h
    | ok v =>
      have h1 : PartitionBuffer.finish e g ⟨fz, some m⟩
          = ({ bb with active := some ⟨0⟩ }, .ok ()) := by
        unfold PartitionBuffer.finish
        simp only [MutableRecordBatch.output_and_reset]
        rw [hab]
      rw [h1] at h
      simp only [Prod.mk.injEq] at h
      right
      rw [← h.1]

theorem finishTakeAll_ok (e : Batch → Except (List Nat) (Nat × List Nat))
    (g : Nat → Nat → Nat) :
    ∀ (bufs bufs1 : List PartitionBuffer) (outs : List (List Nat)) (u : Unit),
      finishTakeAll e g bufs = (bufs1, outs, .ok u) →
      ∀ b ∈ bufs1, b.frozen = ⟨[], 0⟩ ∧ (b.active = none ∨ b.active = some ⟨0⟩) := by
  intro bufs
  induction bufs with
  | nil =>
    intro bufs1 outs u h b hb
    simp only [finishTakeAll, Prod.mk.injEq] at h
    obtain ⟨h1, h2, h3⟩ := h
    subst h1
    simp at hb
  | cons hd tl ih =>
    intro bufs1 outs u h b hb
    rcases hf : PartitionBuffer.finish e g hd with ⟨h1buf, r⟩
    cases r with
    | error err =>
      exfalso
      have hstep : finishTakeAll e g (hd :: tl) = (h1buf :: tl, [], .error err) := by
        simp only [finishTakeAll]
        rw [hf]
      rw [hstep] at h
      simp at h
    | ok v =>
      have hstep : finishTakeAll e g (hd :: tl)
          = ({ h1buf with frozen := ⟨[], 0⟩ } :: (finishTakeAll e g tl).1,
             h1buf.frozen.data :: (finishTakeAll e g tl).2.1,
             (finishTakeAll e g tl).2.2) := by
        simp only [finishTakeAll]
        rw [hf]
      rw [hstep] at h
      rcases ht : finishTakeAll e g tl with ⟨tl1, outs1, r1⟩
      rw [ht] at h
      simp only [Prod.mk.injEq] at h
      obtain ⟨hb1, ho, hr⟩ := h
      subst hb1
      rcases List.mem_cons.mp hb with rfl | hbtl
      · refine ⟨rfl, ?_⟩
        have := finish_ok_active e g hd h1buf v hf
        simpa using this
      · rw [hr] at ht
        exact ih tl1 outs1 u ht b hbtl

/-- C7 amended: after a successful finalize every PartitionBuffer has
empty frozen bytes, and its active builder is either still None or the
empty builder that finish re-installed, but not necessarily None. -/
theorem claim_C7_amended (e : Batch → Except (List Nat) (Nat × List Nat))
    (g : Nat → Nat → Nat) (st st1 : ShuffleRepartitioner) (files : List Nat × List Nat)
    (h : ShuffleRepartitioner.shuffle_write e g st = (st1, .ok files)) :
    ∀ b ∈ st1.buffered_partitions,
      b.frozen.data = [] ∧ (b.active = none ∨ b.active = some ⟨0⟩) := by
  unfold ShuffleRepartitioner.shuffle_write at h
  rcases hft : finishTakeAll e g st.buffered_partitions with ⟨bufs, outs, r⟩
  rw [hft] at h
  cases r with
  | error err => simp at h
  | ok v =>
    simp only [Prod.mk.injEq] at h
    obtain ⟨hst, hfiles⟩ := h
    intro b hb
    rw [← hst] at hb
    have hb2 : b ∈ bufs := by simpa using hb
    have hall := finishTakeAll_ok e g st.buffered_partitions bufs outs v hft b hb2
    refine ⟨?_, hall.2⟩
    rw [hall.1]

/-- C7 witness for the amended claim, at a state with one active
builder. -/
theorem claim_C7_witness :
    ((⟨⟨[], 0⟩, some ⟨0⟩⟩ : PartitionBuffer).frozen.data = []
      ∧ ((⟨⟨[], 0⟩, some ⟨0⟩⟩ : PartitionBuffer).active = none
        ∨ (⟨⟨[], 0⟩, some ⟨0⟩⟩ : PartitionBuffer).active = some ⟨0⟩)) := by
  have h := claim_C7_amended enc0 grow0 stActive
    (ShuffleRepartitioner.shuffle_write enc0 grow0 stActive).1
    ⟨(ShuffleRepartitioner.shuffle_write enc0 grow0 stActive).2.toOption.getD ([], []) |>.1,
     (ShuffleRepartitioner.shuffle_write enc0 grow0 stActive).2.toOption.getD ([], []) |>.2⟩
    rfl
  exact h ⟨⟨[], 0⟩, some ⟨0⟩⟩ (by decide)

/-- C7 counterexample: after a successful finalize over a buffer that
had an active builder, active is Some empty builder, not None. -/
theorem claim_C7_counterexample :
    isOkE (ShuffleRepartitioner.shuffle_write enc0 grow0 stActive).2 = true
    ∧ ((ShuffleRepartitioner.shuffle_write enc0 grow0 stActive).1.buffered_partitions.getD 0
        ⟨⟨[], 0⟩, none⟩).active = some ⟨0⟩ := by
  exact ⟨rfl, rfl⟩

/-! The spill path. -/

/-- C5 amended: spill returns 0 with no SpillInfo appended only when the
partition-buffer vector itself is empty; otherwise, even when every
buffer holds no bytes and no rows, it creates a spill file, appends one
SpillInfo and returns the previous mem_used, resetting it to zero. -/
theorem claim_C5_amended (e : Batch → Except (List Nat) (Nat × List Nat))
    (g : Nat → Nat → Nat) (st : ShuffleRepartitioner)
    (hne : st.buffered_partitions ≠ [])
    (hfin : (finishTakeAll e g st.buffered_partitions).2.2 = .ok ()) :
    (ShuffleRepartitioner.spill e g st).1.spills.length = st.spills.length + 1
    ∧ (ShuffleRepartitioner.spill e g st).2 = .ok st.mem_used
    ∧ (ShuffleRepartitioner.spill e g st).1.mem_used = 0 := by
  unfold ShuffleRepartitioner.spill
  rw [if_neg (by simpa [List.length_eq_zero] using hne)]
  unfold spill_into
  rcases hft : finishTakeAll e g st.buffered_partitions with ⟨bufs1, outs, r⟩
  rw [hft] at hfin
  simp only at hfin
  subst hfin
  simp

/-- C5 witness for the amended claim: one output partition, everything
empty, spill still appends a SpillInfo. -/
theorem claim_C5_witness :
    (ShuffleRepartitioner.spill enc0 grow0
        (ShuffleRepartitioner.new (.hash [0] 1))).1.spills.length
      = (ShuffleRepartitioner.new (.hash [0] 1)).spills.length + 1
    ∧ (ShuffleRepartitioner.spill enc0 grow0
        (ShuffleRepartitioner.new (.hash [0] 1))).2
      = .ok (ShuffleRepartitioner.new (.hash [0] 1)).mem_used
    ∧ (ShuffleRepartitioner.spill enc0 grow0
        (ShuffleRepartitioner.new (.hash [0] 1))).1.mem_used = 0 :=
  claim_C5_amended enc0 grow0 (ShuffleRepartitioner.new (.hash [0] 1))
    (by decide) rfl

/-- C5 counterexample: with one output partition whose buffer holds
empty frozen bytes and no active rows, spill does return 0 but still
appends a SpillInfo for a fresh (empty) spill file, refuting the claim
that nothing is created. -/
theorem claim_C5_counterexample :
    (ShuffleRepartitioner.new (.hash [0] 1)).buffered_partitions = [⟨⟨[], 0⟩, none⟩]
    ∧ (ShuffleRepartitioner.spill enc0 grow0 (ShuffleRepartitioner.new (.hash [0] 1))).2
      = .ok 0
    ∧ (ShuffleRepartitioner.spill enc0 grow0
        (ShuffleRepartitioner.new (.hash [0] 1))).1.spills.length = 1 := by
  exact ⟨rfl, rfl, rfl⟩

/-! The insert path. -/

/-- C6 counterexample: try_new accepts a round-robin partitioning
instead of rejecting it at construction. -/
theorem claim_C6_counterexample :
    ShuffleWriterExec.try_new (.roundRobinBatch 4) "d" "i"
      = .ok ⟨.roundRobinBatch 4, "d", "i"⟩ := rfl

/-- C6 amended: try_new performs no validation and accepts every
partitioning scheme; a non-hash partitioning is instead rejected at the
first non-empty insert_batch whose memory grow succeeds, which returns
the NotImplemented (unsupported repartitioning) error. -/
theorem claim_C6_amended (eval : Nat → Batch → Except DFErr (List Int))
    (hashCol : Int → Int → Int) (byteSize : Batch → Nat)
    (tryGrow : Nat → Except DFErr Unit)
    (processBuckets : ShuffleRepartitioner → Batch → List (Nat × List Nat) →
      ShuffleRepartitioner × Except DFErr Unit)
    (st : ShuffleRepartitioner) (input : Batch)
    (hn : input.numRows ≠ 0)
    (hg : tryGrow (byteSize input) = .ok ())
    (hp : ∀ exprs n, st.partitioning ≠ .hash exprs n) :
    (∀ (p : Partitioning) (dataFile indexFile : String),
        ShuffleWriterExec.try_new p dataFile indexFile = .ok ⟨p, dataFile, indexFile⟩)
    ∧ (ShuffleRepartitioner.insert_batch eval hashCol byteSize tryGrow
        processBuckets st input).2 = .error DFErr.notImplemented := by
  refine ⟨fun p dataFile indexFile => rfl, ?_⟩
  unfold ShuffleRepartitioner.insert_batch
  rw [if_neg hn]
  simp only [hg, hp]

/-- C6 witness for the amended claim, at a round-robin scheme. -/
theorem claim_C6_witness :
    (∀ (p : Partitioning) (dataFile indexFile : String),
        ShuffleWriterExec.try_new p dataFile indexFile = .ok ⟨p, dataFile, indexFile⟩)
    ∧ (ShuffleRepartitioner.insert_batch eval0 hashCol0 byteSize0 tryGrow0
        procB0 (ShuffleRepartitioner.new (.roundRobinBatch 2)) ⟨4⟩).2
      = .error DFErr.notImplemented :=
  claim_C6_amended eval0 hashCol0 byteSize0 tryGrow0 procB0
    (ShuffleRepartitioner.new (.roundRobinBatch 2)) ⟨4⟩ (by decide) rfl
    (by
      intro exprs n hcontra
      simp [ShuffleRepartitioner.new] at hcontra)

/-- C10: for every non-empty batch, insert_batch records output_rows and
(after a successful try_grow) adds the uncompressed batch size to
mem_used before the partitioning scheme is examined, so those updates
persist when it then fails on an unsupported partitioning or on an
expression-evaluation error. -/
theorem claim_C10 (eval : Nat → Batch → Except DFErr (List Int))
    (hashCol : Int → Int → Int) (byteSize : Batch → Nat)
    (tryGrow : Nat → Except DFErr Unit)
    (processBuckets : ShuffleRepartitioner → Batch → List (Nat × List Nat) →
      ShuffleRepartitioner × Except DFErr Unit)
    (st : ShuffleRepartitioner) (input : Batch)
    (hn : input.numRows ≠ 0)
    (hg : tryGrow (byteSize input) = .ok ())
    (herr : (∀ exprs n, st.partitioning ≠ .hash exprs n)
      ∨ ∃ exprs n err, st.partitioning = .hash exprs n
          ∧ evalExprs eval exprs input = .error err) :
    (ShuffleRepartitioner.insert_batch eval hashCol byteSize tryGrow
        processBuckets st input).1.output_rows = st.output_rows + input.numRows
    ∧ (ShuffleRepartitioner.insert_batch eval hashCol byteSize tryGrow
        processBuckets st input).1.mem_used = st.mem_used + byteSize input
    ∧ ∃ err, (ShuffleRepartitioner.insert_batch eval hashCol byteSize tryGrow
        processBuckets st input).2 = .error err := by
  unfold ShuffleRepartitioner.insert_batch
  rw [if_neg hn]
  simp only [hg]
  rcases herr with hnp | ⟨exprs, n, err, hpart, heval⟩
  · cases hpart : st.partitioning with
    | hash exprs n => exact absurd hpart (hnp exprs n)
    | roundRobinBatch n =>
      simp [hpart]
    | unknownPartitioning n =>
      simp [hpart]
  · simp [hpart, heval]

/-- C10 witness: a four-row batch inserted under round-robin
partitioning after a granted grow. -/
theorem claim_C10_witness :
    (ShuffleRepartitioner.insert_batch eval0 hashCol0 byteSize0 tryGrow0
        procB0 (ShuffleRepartitioner.new (.roundRobinBatch 2)) ⟨4⟩).1.output_rows
      = (ShuffleRepartitioner.new (.roundRobinBatch 2)).output_rows + (⟨4⟩ : Batch).numRows
    ∧ (ShuffleRepartitioner.insert_batch eval0 hashCol0 byteSize0 tryGrow0
        procB0 (ShuffleRepartitioner.new (.roundRobinBatch 2)) ⟨4⟩).1.mem_used
      = (ShuffleRepartitioner.new (.roundRobinBatch 2)).mem_used + byteSize0 ⟨4⟩
    ∧ ∃ err, (ShuffleRepartitioner.insert_batch eval0 hashCol0 byteSize0 tryGrow0
        procB0 (ShuffleRepartitioner.new (.roundRobinBatch 2)) ⟨4⟩).2 = .error err :=
  claim_C10 eval0 hashCol0 byteSize0 tryGrow0 procB0
    (ShuffleRepartitioner.new (.roundRobinBatch 2)) ⟨4⟩ (by decide) rfl
    (Or.inl (by
      intro exprs n hcontra
      simp [ShuffleRepartitioner.new] at hcontra))

end Blaze
